import Mathlib

/-!
Shallow embedding of the allocation engine of `src/bandwidth_app.py`
(greedy_allocation, random_allocation, dynamic_allocation,
backtracking_allocation, auto_select), together with proofs of the
behavioural properties claimed for it.

Python machine integers are unbounded, and on the valid domain
(capacity a non-negative integer, demands positive integers) every
intermediate quantity in these functions stays non-negative, so the
embedding uses `Nat` throughout; the places where Python's signed
arithmetic could in principle differ (`remaining <= 0`, `result <= 0`)
are noted at the corresponding definitions.
-/

/-- Models Python `sorted(demands, reverse=True)` restricted to the values:
insertion of one element into a descending-sorted list. For a list of bare
numbers the descending-sorted output sequence is unique, so any correct
descending sort is extensionally the Python one. -/
def insertDesc (d : Nat) : List Nat → List Nat
  | [] => [d]
  | x :: xs => if x ≤ d then d :: x :: xs else x :: insertDesc d xs

/-- Models Python `sorted(demands, reverse=True)`. -/
def sortDesc : List Nat → List Nat
  | [] => []
  | d :: ds => insertDesc d (sortDesc ds)

/-- The loop of `greedy_allocation` (source lines 14-19): walks the
descending-sorted demands, grants `alloc = min(d, remaining)`, subtracts it
from `remaining`, and breaks as soon as `remaining <= 0`.  With a
non-negative starting `remaining`, `remaining` never goes below 0 in the
Python code (each grant is at most `remaining`), so `remaining <= 0` is
`remaining = 0` and `Nat` subtraction is exact.  Returns the allocation
list and the final `remaining`. -/
def greedyGo : List Nat → Nat → List Nat × Nat
  | [], remaining => ([], remaining)
  | d :: ds, remaining =>
    let alloc := min d remaining
    if remaining - alloc = 0 then ([alloc], 0)
    else
      let rest := greedyGo ds (remaining - alloc)
      (alloc :: rest.1, rest.2)

/-- `greedy_allocation` (source lines 11-20): sorts demands descending,
grants partial amounts greedily, returns `(allocation, C - remaining)`. -/
def greedy_allocation (total_bandwidth : Nat) (demands : List Nat) : List Nat × Nat :=
  let r := greedyGo (sortDesc demands) total_bandwidth
  (r.1, total_bandwidth - r.2)

/-- The loop of `random_allocation` (source lines 26-31).  The random draws
are abstracted into an oracle `draw : Nat → Nat → Nat` giving the value of
the `k`-th call `random.randint(0, hi)`; a possible sequence of draws is
one with `draw k hi ≤ hi` for every call (randint's upper bound is
inclusive, lower bound 0).  As in `greedyGo`, under such draws `remaining`
never goes below 0, so `remaining <= 0` is `remaining = 0`. -/
def randomGo (draw : Nat → Nat → Nat) : List Nat → Nat → Nat → List Nat × Nat
  | [], _, remaining => ([], remaining)
  | _ :: ds, k, remaining =>
    let alloc := draw k (if 0 < remaining then remaining else 0)
    if remaining - alloc = 0 then ([alloc], 0)
    else
      let rest := randomGo draw ds (k + 1) (remaining - alloc)
      (alloc :: rest.1, rest.2)

/-- `random_allocation` (source lines 23-32), parameterised by the draw
oracle. -/
def random_allocation (total_bandwidth : Nat) (demands : List Nat)
    (draw : Nat → Nat → Nat) : List Nat × Nat :=
  let r := randomGo draw demands 0 total_bandwidth
  (r.1, total_bandwidth - r.2)

/-- The table of `dynamic_allocation` (source lines 37-44): `dpPre D i w`
is `dp[i][w]`, the best achievable sum using the first `i` demands within
capacity `w`, with recurrence
`dp[i][w] = if demands[i-1] <= w then max(dp[i-1][w], dp[i-1][w-demands[i-1]] + demands[i-1]) else dp[i-1][w]`.
The Python loop runs `w` from 1 and leaves `dp[i][0] = 0` from the
initialisation; applying the recurrence at `w = 0` also yields 0 (either
branch reduces to `dp[i-1][0]`), so the uniform recurrence below computes
exactly the Python table.  `D.getD i 0` is `demands[i]`; it is only ever
used at `i < D.length`. -/
def dpPre (D : List Nat) : Nat → Nat → Nat
  | 0, _ => 0
  | i + 1, w =>
    if D.getD i 0 ≤ w then
      max (dpPre D i w) (dpPre D i (w - D.getD i 0) + D.getD i 0)
    else dpPre D i w

/-- The reconstruction loop of `dynamic_allocation` (source lines 46-57):
walks `i` from `n` down to 1 carrying `result` and `w`, breaking when
`result <= 0` (dp values are non-negative, so this is `result = 0`),
skipping item `i` when `result == dp[i-1][w]` and otherwise taking it.
On the states the loop actually reaches, `result = dp[i][w]`, so in the
taking branch `demands[i-1] ≤ w` and `demands[i-1] ≤ result` hold and the
`Nat` subtractions are exact. -/
def reconstruct (D : List Nat) : Nat → Nat → Nat → List Nat
  | 0, _, _ => []
  | i + 1, result, w =>
    if result = 0 then []
    else if result = dpPre D i w then reconstruct D i result w
    else D.getD i 0 :: reconstruct D i (result - D.getD i 0) (w - D.getD i 0)

/-- `dynamic_allocation` (source lines 35-59): fills the dp table, reads
`dp[n][C]`, reconstructs the selected demands (in descending index order,
as the Python `append` loop produces), and returns
`(allocation, sum(allocation))`. -/
def dynamic_allocation (total_bandwidth : Nat) (demands : List Nat) : List Nat × Nat :=
  let allocation :=
    reconstruct demands demands.length
      (dpPre demands demands.length total_bandwidth) total_bandwidth
  (allocation, allocation.sum)

/-- The mutable `best_sum` / `best_alloc` pair of `backtracking_allocation`
(source lines 63-64), threaded explicitly through the search. -/
structure BTState where
  best_sum : Nat
  best_alloc : List Nat
deriving DecidableEq, Repr

/-- The recursive `backtrack(i, current, total)` of `backtracking_allocation`
(source lines 66-78), with the suffix `demands[i:]` passed in place of the
index `i`: prune when `total > total_bandwidth`, update the best state when
`total > best_sum`, stop when all demands are decided, otherwise recurse on
include (`current + [demands[i]]`, `total + demands[i]`) then exclude. -/
def btGo (total_bandwidth : Nat) : List Nat → List Nat → Nat → BTState → BTState
  | rest, current, total, s =>
    if total_bandwidth < total then s
    else
      let s1 := if s.best_sum < total then BTState.mk total current else s
      match rest with
      | [] => s1
      | d :: ds =>
        let s2 := btGo total_bandwidth ds (current ++ [d]) (total + d) s1
        btGo total_bandwidth ds current total s2

/-- `backtracking_allocation` (source lines 62-81). -/
def backtracking_allocation (total_bandwidth : Nat) (demands : List Nat) : List Nat × Nat :=
  let s := btGo total_bandwidth demands [] 0 (BTState.mk 0 [])
  (s.best_alloc, s.best_sum)

/-- The four strategy names, in the evaluation order of `auto_select`'s
`results` dict (source lines 85-90). -/
inductive StrategyName where
  | Greedy
  | DynamicProgramming
  | Backtracking
  | Random
deriving DecidableEq, Repr

/-- Models CPython's `max(results, key=results.get)` over the dict's
insertion order (source line 91): scan left to right keeping the current
best, replacing it only on a strictly greater value, so on ties the
earliest entry wins. -/
def pyMax (first : StrategyName × Nat) : List (StrategyName × Nat) → StrategyName × Nat
  | [] => first
  | x :: xs => pyMax (if first.2 < x.2 then x else first) xs

/-- `auto_select` (source lines 84-92): runs the four allocators, collects
their achieved totals in insertion order Greedy, Dynamic Programming,
Backtracking, Random, and returns `(best_algo, results[best_algo], results)`. -/
def auto_select (total_bandwidth : Nat) (demands : List Nat)
    (draw : Nat → Nat → Nat) : StrategyName × Nat × List (StrategyName × Nat) :=
  let results : List (StrategyName × Nat) :=
    [(StrategyName.Greedy, (greedy_allocation total_bandwidth demands).2),
     (StrategyName.DynamicProgramming, (dynamic_allocation total_bandwidth demands).2),
     (StrategyName.Backtracking, (backtracking_allocation total_bandwidth demands).2),
     (StrategyName.Random, (random_allocation total_bandwidth demands draw).2)]
  let best := pyMax (StrategyName.Greedy, (greedy_allocation total_bandwidth demands).2)
    results.tail
  (best.1, best.2, results)

/-- The optimum the spec describes for the exact optimizers: the maximum,
over all subsets `S` of the demand list (sublists, i.e. each demand taken
whole or not at all), of `sum S` subject to `sum S ≤ w`. -/
def maxSubsetSum (w : Nat) (D : List Nat) : Nat :=
  (((D.sublists).map List.sum).filter (fun s => decide (s ≤ w))).foldr max 0

/-! ### The subset-sum optimum: characterisation lemmas -/

theorem foldrMax_le {l : List Nat} {b : Nat} (h : ∀ a ∈ l, a ≤ b) :
    l.foldr max 0 ≤ b := by
  induction l with
  | nil => exact Nat.zero_le b
  | cons x xs ih =>
    exact max_le (h x (List.mem_cons_self x xs))
      (ih fun a ha => h a (List.mem_cons_of_mem x ha))

theorem le_foldrMax {l : List Nat} {a : Nat} (h : a ∈ l) : a ≤ l.foldr max 0 := by
  induction l with
  | nil => cases h
  | cons x xs ih =>
    rcases List.mem_cons.mp h with h | h
    · exact h ▸ le_max_left x (xs.foldr max 0)
    · exact le_trans (ih h) (le_max_right x (xs.foldr max 0))

theorem foldrMax_mem {l : List Nat} (h : l ≠ []) : l.foldr max 0 ∈ l := by
  induction l with
  | nil => exact absurd rfl h
  | cons x xs ih =>
    rcases max_choice x (xs.foldr max 0) with hm | hm
    · rw [List.foldr_cons, hm]
      exact List.mem_cons_self x xs
    · rw [List.foldr_cons, hm]
      by_cases hxs : xs = []
      · subst hxs
        simp at hm
        simp [hm]
      · exact List.mem_cons_of_mem x (ih hxs)

/-- `maxSubsetSum w D` is attained by some sublist of `D` whose sum is
within `w`. -/
theorem maxSubsetSum_attained (w : Nat) (D : List Nat) :
    ∃ S : List Nat, S.Sublist D ∧ S.sum ≤ w ∧ maxSubsetSum w D = S.sum := by
  have hne : ((D.sublists.map List.sum).filter (fun s => decide (s ≤ w))) ≠ [] := by
    have h0 : (0 : Nat) ∈ (D.sublists.map List.sum).filter (fun s => decide (s ≤ w)) := by
      apply List.mem_filter.mpr
      constructor
      · exact List.mem_map.mpr ⟨[], List.mem_sublists.mpr (List.nil_sublist D), rfl⟩
      · simp
    intro hnil
    rw [hnil] at h0
    cases h0
  have hmem := foldrMax_mem hne
  have h2 := List.mem_filter.mp hmem
  rcases List.mem_map.mp h2.1 with ⟨S, hS, hsum⟩
  refine ⟨S, List.mem_sublists.mp hS, ?_, hsum.symm⟩
  rw [hsum]
  exact of_decide_eq_true h2.2

/-- Every sublist of `D` with sum within `w` has sum at most
`maxSubsetSum w D`. -/
theorem le_maxSubsetSum {w : Nat} {D S : List Nat} (hS : S.Sublist D)
    (hle : S.sum ≤ w) : S.sum ≤ maxSubsetSum w D := by
  apply le_foldrMax
  apply List.mem_filter.mpr
  exact ⟨List.mem_map.mpr ⟨S, List.mem_sublists.mpr hS, rfl⟩, decide_eq_true hle⟩

/-- Anything attained by a feasible sublist and dominating every feasible
sublist sum equals `maxSubsetSum`. -/
theorem eq_maxSubsetSum {m w : Nat} {D : List Nat}
    (h1 : ∃ S : List Nat, S.Sublist D ∧ S.sum ≤ w ∧ m = S.sum)
    (h2 : ∀ S : List Nat, S.Sublist D → S.sum ≤ w → S.sum ≤ m) :
    m = maxSubsetSum w D := by
  rcases h1 with ⟨S, hS, hle, hm⟩
  rcases maxSubsetSum_attained w D with ⟨T, hT, hTle, hmax⟩
  exact Nat.le_antisymm (hm ▸ le_maxSubsetSum hS hle) (hmax ▸ h2 T hT hTle)

/-- Head recurrence for the subset-sum optimum. -/
theorem maxSubsetSum_cons (w d : Nat) (ds : List Nat) :
    maxSubsetSum w (d :: ds) =
      if d ≤ w then max (maxSubsetSum w ds) (d + maxSubsetSum (w - d) ds)
      else maxSubsetSum w ds := by
  symm
  by_cases hdw : d ≤ w
  · rw [if_pos hdw]
    apply eq_maxSubsetSum
    · rcases max_choice (maxSubsetSum w ds) (d + maxSubsetSum (w - d) ds) with hm | hm
      · rcases maxSubsetSum_attained w ds with ⟨S, hS, hle, hval⟩
        exact ⟨S, hS.cons d, hle, by rw [hm, hval]⟩
      · rcases maxSubsetSum_attained (w - d) ds with ⟨S, hS, hle, hval⟩
        refine ⟨d :: S, hS.cons₂ d, by simp; omega, ?_⟩
        rw [hm, hval]; simp
    · intro S hS hle
      cases hS with
      | cons _ h =>
        exact le_trans (le_maxSubsetSum h hle)
          (le_max_left _ (d + maxSubsetSum (w - d) ds))
      | cons₂ _ h =>
        rename_i t
        have hts : t.sum ≤ w - d := by simp at hle; omega
        have := le_maxSubsetSum h hts
        refine le_trans ?_ (le_max_right (maxSubsetSum w ds) _)
        simp
        omega
  · rw [if_neg hdw]
    apply eq_maxSubsetSum
    · rcases maxSubsetSum_attained w ds with ⟨S, hS, hle, hval⟩
      exact ⟨S, hS.cons d, hle, hval⟩
    · intro S hS hle
      cases hS with
      | cons _ h => exact le_maxSubsetSum h hle
      | cons₂ _ h =>
        rename_i t
        simp at hle
        omega

/-! ### The dynamic-programming table computes the subset-sum optimum -/

theorem dpPre_of_length_le {D : List Nat} {i : Nat} (h : D.length ≤ i) (w : Nat) :
    dpPre D (i + 1) w = dpPre D i w := by
  have hd : D.getD i 0 = 0 := List.getD_eq_default D 0 h
  simp only [dpPre, hd]
  rw [if_pos (Nat.zero_le w), Nat.sub_zero, Nat.add_zero, max_self]

theorem take_sublist_take_succ (D : List Nat) (i : Nat) :
    (D.take i).Sublist (D.take (i + 1)) := by
  have h := List.take_sublist i (D.take (i + 1))
  rwa [List.take_take, min_eq_left (Nat.le_succ i)] at h

theorem take_succ_of_lt {D : List Nat} {i : Nat} (h : i < D.length) :
    D.take (i + 1) = D.take i ++ [D.getD i 0] := by
  rw [List.take_succ, List.getElem?_eq_getElem h, List.getD_eq_getElem D 0 h]
  rfl

theorem dpPre_le_succ (D : List Nat) (i w : Nat) :
    dpPre D i w ≤ dpPre D (i + 1) w := by
  simp only [dpPre]
  split
  · exact le_max_left _ _
  · exact le_refl _

/-- The dp value `dp[i][w]` is attained by a sublist of the first `i`
demands whose sum is within `w`. -/
theorem dpPre_attained (D : List Nat) :
    ∀ i w, ∃ S : List Nat,
      S.Sublist (D.take i) ∧ S.sum ≤ w ∧ dpPre D i w = S.sum := by
  intro i
  induction i with
  | zero =>
    intro w
    exact ⟨[], by simp, Nat.zero_le w, rfl⟩
  | succ i ih =>
    intro w
    by_cases hlen : D.length ≤ i
    · rcases ih w with ⟨S, hS, hle, hval⟩
      refine ⟨S, ?_, hle, ?_⟩
      · rwa [List.take_of_length_le (Nat.le_trans hlen (Nat.le_succ i)),
          ← List.take_of_length_le hlen]
      · rwa [dpPre_of_length_le hlen]
    · push_neg at hlen
      have htake := take_succ_of_lt hlen
      by_cases hdw : D.getD i 0 ≤ w
      · have hrec : dpPre D (i + 1) w
            = max (dpPre D i w) (dpPre D i (w - D.getD i 0) + D.getD i 0) := by
          simp only [dpPre]
          rw [if_pos hdw]
        rcases max_choice (dpPre D i w) (dpPre D i (w - D.getD i 0) + D.getD i 0) with hm | hm
        · rcases ih w with ⟨S, hS, hle, hval⟩
          refine ⟨S, ?_, hle, ?_⟩
          · rw [htake]
            exact hS.trans (List.sublist_append_left _ _)
          · rw [hrec, hm, hval]
        · rcases ih (w - D.getD i 0) with ⟨S, hS, hle, hval⟩
          refine ⟨S ++ [D.getD i 0], ?_, ?_, ?_⟩
          · rw [htake]
            exact hS.append (List.Sublist.refl _)
          · rw [List.sum_append, List.sum_cons, List.sum_nil]
            omega
          · rw [hrec, hm, hval, List.sum_append, List.sum_cons, List.sum_nil]
            omega
      · have hrec : dpPre D (i + 1) w = dpPre D i w := by
          simp only [dpPre]
          rw [if_neg hdw]
        rcases ih w with ⟨S, hS, hle, hval⟩
        refine ⟨S, ?_, hle, ?_⟩
        · rw [htake]
          exact hS.trans (List.sublist_append_left _ _)
        · rw [hrec, hval]

/-- The dp value `dp[i][w]` dominates the sum of every sublist of the
first `i` demands whose sum is within `w`. -/
theorem dpPre_dominates (D : List Nat) :
    ∀ i w (S : List Nat), S.Sublist (D.take i) → S.sum ≤ w →
      S.sum ≤ dpPre D i w := by
  intro i
  induction i with
  | zero =>
    intro w S hS _
    rw [List.take_zero] at hS
    rw [List.sublist_nil.mp hS]
    exact Nat.le_refl _
  | succ i ih =>
    intro w S hS hle
    by_cases hlen : D.length ≤ i
    · rw [dpPre_of_length_le hlen]
      apply ih w S ?_ hle
      rwa [List.take_of_length_le hlen,
        ← List.take_of_length_le (Nat.le_trans hlen (Nat.le_succ i))]
    · push_neg at hlen
      rw [take_succ_of_lt hlen] at hS
      rcases List.sublist_append_iff.mp hS with ⟨S₁, S₂, rfl, h₁, h₂⟩
      cases h₂ with
      | cons _ h =>
        rw [List.sublist_nil.mp h, List.append_nil] at hle ⊢
        exact Nat.le_trans (ih w S₁ h₁ hle) (dpPre_le_succ D i w)
      | cons₂ _ h =>
        rename_i t
        rw [List.sublist_nil.mp h] at hle ⊢
        rw [List.sum_append, List.sum_cons, List.sum_nil] at hle ⊢
        have hdw : D.getD i 0 ≤ w := by omega
        have h1 : S₁.sum ≤ w - D.getD i 0 := by omega
        have := ih (w - D.getD i 0) S₁ h₁ h1
        have hrec : dpPre D (i + 1) w
            = max (dpPre D i w) (dpPre D i (w - D.getD i 0) + D.getD i 0) := by
          simp only [dpPre]
          rw [if_pos hdw]
        rw [hrec]
        refine Nat.le_trans ?_ (le_max_right _ _)
        omega

/-- `dp[n][C]` is exactly the subset-sum optimum of the whole demand
list. -/
theorem dpPre_eq_maxSubsetSum (D : List Nat) (w : Nat) :
    dpPre D D.length w = maxSubsetSum w D := by
  apply eq_maxSubsetSum
  · rcases dpPre_attained D D.length w with ⟨S, hS, hle, hval⟩
    rw [List.take_length] at hS
    exact ⟨S, hS, hle, hval⟩
  · intro S hS hle
    exact dpPre_dominates D D.length w S (by rwa [List.take_length]) hle

/-! ### The reconstruction loop recovers a subset attaining `dp[n][C]` -/

/-- Started at the true dp value, the reconstruction loop produces a list
summing to that value whose reverse is a sublist of the first `i`
demands. -/
theorem reconstruct_spec (D : List Nat) :
    ∀ i w, (reconstruct D i (dpPre D i w) w).sum = dpPre D i w ∧
      (reconstruct D i (dpPre D i w) w).reverse.Sublist (D.take i) := by
  intro i
  induction i with
  | zero =>
    intro w
    exact ⟨rfl, List.nil_sublist _⟩
  | succ i ih =>
    intro w
    by_cases h0 : dpPre D (i + 1) w = 0
    · have hrec : reconstruct D (i + 1) (dpPre D (i + 1) w) w = [] := by
        conv_lhs => rw [reconstruct]
        rw [if_pos h0]
      rw [hrec, h0]
      exact ⟨rfl, List.nil_sublist _⟩
    · by_cases heq : dpPre D (i + 1) w = dpPre D i w
      · have hrec : reconstruct D (i + 1) (dpPre D (i + 1) w) w
            = reconstruct D i (dpPre D i w) w := by
          conv_lhs => rw [reconstruct]
          rw [if_neg h0, if_pos heq, heq]
        rcases ih w with ⟨hsum, hsub⟩
        rw [hrec, heq]
        exact ⟨hsum, hsub.trans (take_sublist_take_succ D i)⟩
      · have hlen : i < D.length := by
          by_contra hc
          push_neg at hc
          exact heq (dpPre_of_length_le hc w)
        have hdw : D.getD i 0 ≤ w := by
          by_contra hc
          push_neg at hc
          apply heq
          simp only [dpPre]
          rw [if_neg (by omega)]
        have hval : dpPre D (i + 1) w
            = dpPre D i (w - D.getD i 0) + D.getD i 0 := by
          have hmax : dpPre D (i + 1) w
              = max (dpPre D i w) (dpPre D i (w - D.getD i 0) + D.getD i 0) := by
            simp only [dpPre]
            rw [if_pos hdw]
          rcases max_choice (dpPre D i w) (dpPre D i (w - D.getD i 0) + D.getD i 0)
            with hm | hm
          · exact absurd (hmax.trans hm) heq
          · exact hmax.trans hm
        have hsub' : dpPre D (i + 1) w - D.getD i 0 = dpPre D i (w - D.getD i 0) := by
          omega
        have hrec : reconstruct D (i + 1) (dpPre D (i + 1) w) w
            = D.getD i 0 ::
              reconstruct D i (dpPre D i (w - D.getD i 0)) (w - D.getD i 0) := by
          conv_lhs => rw [reconstruct]
          rw [if_neg h0, if_neg heq, hsub']
        rcases ih (w - D.getD i 0) with ⟨hsum, hsubl⟩
        constructor
        · rw [hrec, List.sum_cons, hsum]
          omega
        · rw [hrec, List.reverse_cons, take_succ_of_lt hlen]
          exact hsubl.append (List.Sublist.refl _)

/-- `dynamic_allocation`: the achieved total is the subset-sum optimum. -/
theorem dynamic_allocation_total (C : Nat) (D : List Nat) :
    (dynamic_allocation C D).2 = maxSubsetSum C D := by
  have h := reconstruct_spec D D.length C
  simp only [dynamic_allocation]
  rw [h.1, dpPre_eq_maxSubsetSum]

/-- `dynamic_allocation`: the reversed allocation list is a sublist of the
demand list (the loop emits chosen demands in descending index order). -/
theorem dynamic_allocation_reverse_sublist (C : Nat) (D : List Nat) :
    (dynamic_allocation C D).1.reverse.Sublist D := by
  have h := (reconstruct_spec D D.length C).2
  rwa [List.take_length] at h

/-- `dynamic_allocation` returns the sum of its allocation list as the
achieved total. -/
theorem dynamic_allocation_sum_eq (C : Nat) (D : List Nat) :
    (dynamic_allocation C D).1.sum = (dynamic_allocation C D).2 := rfl

/-! ### Greedy: the partial-grant loop exhausts capacity or demands -/

theorem insertDesc_perm (d : Nat) (l : List Nat) : (insertDesc d l).Perm (d :: l) := by
  induction l with
  | nil => exact List.Perm.refl _
  | cons x xs ih =>
    simp only [insertDesc]
    split
    · exact List.Perm.refl _
    · exact (List.Perm.cons x ih).trans (List.Perm.swap d x xs)

theorem sortDesc_perm (l : List Nat) : (sortDesc l).Perm l := by
  induction l with
  | nil => exact List.Perm.refl _
  | cons d ds ih => exact (insertDesc_perm d (sortDesc ds)).trans (List.Perm.cons d ih)

theorem sortDesc_sum (l : List Nat) : (sortDesc l).sum = l.sum :=
  (sortDesc_perm l).sum_eq

/-- The final `remaining` of the greedy loop is the starting `remaining`
minus the total demand (truncated at 0). -/
theorem greedyGo_remaining (l : List Nat) :
    ∀ r, (greedyGo l r).2 = r - l.sum := by
  induction l with
  | nil =>
    intro r
    simp [greedyGo]
  | cons d ds ih =>
    intro r
    have hdef : greedyGo (d :: ds) r =
        if r - min d r = 0 then ([min d r], 0)
        else (min d r :: (greedyGo ds (r - min d r)).1, (greedyGo ds (r - min d r)).2) := rfl
    rw [hdef]
    split_ifs with h
    · simp only [List.sum_cons]
      omega
    · simp only [List.sum_cons]
      rw [ih]
      omega

/-- The greedy achieved total is exactly `min C (sum D)`. -/
theorem greedy_total_eq (C : Nat) (D : List Nat) :
    (greedy_allocation C D).2 = min C D.sum := by
  show C - (greedyGo (sortDesc D) C).2 = min C D.sum
  rw [greedyGo_remaining, sortDesc_sum]
  omega

/-! ### Random: the loop never grants more than the remaining budget -/

/-- Under any possible sequence of draws the final `remaining` of the
random loop never exceeds the starting one. -/
theorem randomGo_remaining_le (draw : Nat → Nat → Nat) (l : List Nat) :
    ∀ k r, (randomGo draw l k r).2 ≤ r := by
  induction l with
  | nil =>
    intro k r
    exact Nat.le_refl r
  | cons d ds ih =>
    intro k r
    have hdef : randomGo draw (d :: ds) k r =
        if r - draw k (if 0 < r then r else 0) = 0
        then ([draw k (if 0 < r then r else 0)], 0)
        else (draw k (if 0 < r then r else 0) ::
            (randomGo draw ds (k + 1) (r - draw k (if 0 < r then r else 0))).1,
          (randomGo draw ds (k + 1) (r - draw k (if 0 < r then r else 0))).2) := rfl
    rw [hdef]
    split_ifs <;>
      first
        | exact Nat.zero_le r
        | exact Nat.le_trans (ih (k + 1) _) (Nat.sub_le _ _)

/-! ### Backtracking: the explicit-state search finds the optimum -/

theorem maxSubsetSum_nil (w : Nat) : maxSubsetSum w [] = 0 := by
  simp [maxSubsetSum]

/-- The best total after a call of `backtrack` is the previous best maxed
with the best feasible extension of the current running total by a subset
of the undecided demands (when the running total itself is feasible; an
infeasible call is pruned and leaves the state unchanged). -/
theorem btGo_best_sum (C : Nat) :
    ∀ (rest current : List Nat) (total : Nat) (s : BTState),
      (btGo C rest current total s).best_sum =
        if C < total then s.best_sum
        else max s.best_sum (total + maxSubsetSum (C - total) rest) := by
  intro rest
  induction rest with
  | nil =>
    intro current total s
    have hdef : btGo C [] current total s =
        if C < total then s
        else if s.best_sum < total then BTState.mk total current else s := rfl
    rw [hdef, maxSubsetSum_nil]
    split_ifs with h1 h2 <;> simp <;> omega
  | cons d ds ih =>
    intro current total s
    have hdef : btGo C (d :: ds) current total s =
        if C < total then s
        else
          btGo C ds current total
            (btGo C ds (current ++ [d]) (total + d)
              (if s.best_sum < total then BTState.mk total current else s)) := rfl
    by_cases h1 : C < total
    · rw [hdef]
      simp only [if_pos h1]
    · rw [hdef]
      simp only [if_neg h1]
      rw [ih, ih, maxSubsetSum_cons]
      simp only [if_neg h1]
      have hs1 : (if s.best_sum < total then BTState.mk total current else s).best_sum
          = max s.best_sum total := by
        split_ifs <;> simp <;> omega
      rw [hs1]
      by_cases h2 : C < total + d
      · rw [if_pos h2, if_neg (by omega : ¬ d ≤ C - total)]
        omega
      · rw [if_neg h2, if_pos (by omega : d ≤ C - total)]
        have he : C - total - d = C - (total + d) := by omega
        rw [he]
        omega

/-- The best total reported by `backtracking_allocation` is the
subset-sum optimum. -/
theorem backtracking_total_eq (C : Nat) (D : List Nat) :
    (backtracking_allocation C D).2 = maxSubsetSum C D := by
  show (btGo C D [] 0 (BTState.mk 0 [])).best_sum = maxSubsetSum C D
  rw [btGo_best_sum]
  rw [if_neg (by omega : ¬ C < 0)]
  simp

/-- The best state always carries a `best_alloc` summing to `best_sum`. -/
theorem btGo_sum_invariant (C : Nat) :
    ∀ (rest current : List Nat) (total : Nat) (s : BTState),
      total = current.sum → s.best_alloc.sum = s.best_sum →
      (btGo C rest current total s).best_alloc.sum
        = (btGo C rest current total s).best_sum := by
  intro rest
  induction rest with
  | nil =>
    intro current total s ht hs
    have hdef : btGo C [] current total s =
        if C < total then s
        else if s.best_sum < total then BTState.mk total current else s := rfl
    rw [hdef]
    split_ifs <;> first | exact hs | exact ht.symm
  | cons d ds ih =>
    intro current total s ht hs
    have hdef : btGo C (d :: ds) current total s =
        if C < total then s
        else
          btGo C ds current total
            (btGo C ds (current ++ [d]) (total + d)
              (if s.best_sum < total then BTState.mk total current else s)) := rfl
    by_cases h1 : C < total
    · rw [hdef]
      simp only [if_pos h1]
      exact hs
    · rw [hdef]
      simp only [if_neg h1]
      apply ih
      · exact ht
      · apply ih
        · rw [List.sum_append, List.sum_cons, List.sum_nil]
          omega
        · split_ifs
          · exact ht.symm
          · exact hs

/-- The best state always carries a `best_alloc` that is an
order-preserving sublist of the decided prefix followed by the undecided
suffix. -/
theorem btGo_alloc_sublist (C : Nat) :
    ∀ (rest current : List Nat) (total : Nat) (s : BTState) (Q : List Nat),
      current.Sublist Q → s.best_alloc.Sublist (Q ++ rest) →
      (btGo C rest current total s).best_alloc.Sublist (Q ++ rest) := by
  intro rest
  induction rest with
  | nil =>
    intro current total s Q hc hsb
    have hdef : btGo C [] current total s =
        if C < total then s
        else if s.best_sum < total then BTState.mk total current else s := rfl
    rw [hdef]
    split_ifs
    · exact hsb
    · exact hc.trans (List.sublist_append_left Q [])
    · exact hsb
  | cons d ds ih =>
    intro current total s Q hc hsb
    have hdef : btGo C (d :: ds) current total s =
        if C < total then s
        else
          btGo C ds current total
            (btGo C ds (current ++ [d]) (total + d)
              (if s.best_sum < total then BTState.mk total current else s)) := rfl
    have hQ : (Q ++ [d]) ++ ds = Q ++ d :: ds := by simp
    by_cases h1 : C < total
    · rw [hdef]
      simp only [if_pos h1]
      exact hsb
    · rw [hdef]
      simp only [if_neg h1]
      rw [← hQ]
      apply ih
      · exact hc.trans (List.sublist_append_left Q [d])
      · apply ih
        · exact hc.append (List.Sublist.refl [d])
        · split_ifs
          · exact (hc.trans (List.sublist_append_left Q [d])).trans
              (List.sublist_append_left (Q ++ [d]) ds)
          · rw [hQ]
            exact hsb

/-- `backtracking_allocation` reports the sum of the subset it returns. -/
theorem backtracking_sum_eq (C : Nat) (D : List Nat) :
    (backtracking_allocation C D).1.sum = (backtracking_allocation C D).2 := by
  show (btGo C D [] 0 (BTState.mk 0 [])).best_alloc.sum
      = (btGo C D [] 0 (BTState.mk 0 [])).best_sum
  exact btGo_sum_invariant C D [] 0 (BTState.mk 0 []) rfl rfl

/-- `backtracking_allocation` returns an order-preserving sublist of the
demand list. -/
theorem backtracking_alloc_sublist (C : Nat) (D : List Nat) :
    (backtracking_allocation C D).1.Sublist D := by
  show (btGo C D [] 0 (BTState.mk 0 [])).best_alloc.Sublist D
  have h := btGo_alloc_sublist C D [] 0 (BTState.mk 0 []) []
    (List.nil_sublist []) (List.nil_sublist ([] ++ D))
  simpa using h

/-! ### Auto-select: first maximal entry in evaluation order wins -/

/-- CPython `max` over the four report entries: the value is the maximum
of the four totals and the key is the first strategy in evaluation order
attaining it. -/
theorem pyMax_four (g dy bt rd : Nat) :
    pyMax (StrategyName.Greedy, g)
      [(StrategyName.DynamicProgramming, dy), (StrategyName.Backtracking, bt),
        (StrategyName.Random, rd)]
    = (if g = max (max g dy) (max bt rd) then StrategyName.Greedy
        else if dy = max (max g dy) (max bt rd) then StrategyName.DynamicProgramming
        else if bt = max (max g dy) (max bt rd) then StrategyName.Backtracking
        else StrategyName.Random,
        max (max g dy) (max bt rd)) := by
  have e1 : pyMax (StrategyName.Greedy, g)
      [(StrategyName.DynamicProgramming, dy), (StrategyName.Backtracking, bt),
        (StrategyName.Random, rd)]
    = pyMax (if g < dy then (StrategyName.DynamicProgramming, dy)
        else (StrategyName.Greedy, g))
      [(StrategyName.Backtracking, bt), (StrategyName.Random, rd)] := rfl
  rw [e1]
  by_cases h1 : g < dy
  · rw [if_pos h1]
    have e2 : pyMax (StrategyName.DynamicProgramming, dy)
        [(StrategyName.Backtracking, bt), (StrategyName.Random, rd)]
      = pyMax (if dy < bt then (StrategyName.Backtracking, bt)
          else (StrategyName.DynamicProgramming, dy)) [(StrategyName.Random, rd)] := rfl
    rw [e2]
    by_cases h2 : dy < bt
    · rw [if_pos h2]
      have e3 : pyMax (StrategyName.Backtracking, bt) [(StrategyName.Random, rd)]
          = if bt < rd then (StrategyName.Random, rd)
            else (StrategyName.Backtracking, bt) := rfl
      rw [e3]
      by_cases h3 : bt < rd
      · rw [if_pos h3, show max (max g dy) (max bt rd) = rd from by omega,
          if_neg (show ¬ g = rd from by omega),
          if_neg (show ¬ dy = rd from by omega),
          if_neg (show ¬ bt = rd from by omega)]
      · rw [if_neg h3, show max (max g dy) (max bt rd) = bt from by omega,
          if_neg (show ¬ g = bt from by omega),
          if_neg (show ¬ dy = bt from by omega),
          if_pos (show bt = bt from rfl)]
    · rw [if_neg h2]
      have e3 : pyMax (StrategyName.DynamicProgramming, dy) [(StrategyName.Random, rd)]
          = if dy < rd then (StrategyName.Random, rd)
            else (StrategyName.DynamicProgramming, dy) := rfl
      rw [e3]
      by_cases h3 : dy < rd
      · rw [if_pos h3, show max (max g dy) (max bt rd) = rd from by omega,
          if_neg (show ¬ g = rd from by omega),
          if_neg (show ¬ dy = rd from by omega),
          if_neg (show ¬ bt = rd from by omega)]
      · rw [if_neg h3, show max (max g dy) (max bt rd) = dy from by omega,
          if_neg (show ¬ g = dy from by omega),
          if_pos (show dy = dy from rfl)]
  · rw [if_neg h1]
    have e2 : pyMax (StrategyName.Greedy, g)
        [(StrategyName.Backtracking, bt), (StrategyName.Random, rd)]
      = pyMax (if g < bt then (StrategyName.Backtracking, bt)
          else (StrategyName.Greedy, g)) [(StrategyName.Random, rd)] := rfl
    rw [e2]
    by_cases h2 : g < bt
    · rw [if_pos h2]
      have e3 : pyMax (StrategyName.Backtracking, bt) [(StrategyName.Random, rd)]
          = if bt < rd then (StrategyName.Random, rd)
            else (StrategyName.Backtracking, bt) := rfl
      rw [e3]
      by_cases h3 : bt < rd
      · rw [if_pos h3, show max (max g dy) (max bt rd) = rd from by omega,
          if_neg (show ¬ g = rd from by omega),
          if_neg (show ¬ dy = rd from by omega),
          if_neg (show ¬ bt = rd from by omega)]
      · rw [if_neg h3, show max (max g dy) (max bt rd) = bt from by omega,
          if_neg (show ¬ g = bt from by omega),
          if_neg (show ¬ dy = bt from by omega),
          if_pos (show bt = bt from rfl)]
    · rw [if_neg h2]
      have e3 : pyMax (StrategyName.Greedy, g) [(StrategyName.Random, rd)]
          = if g < rd then (StrategyName.Random, rd) else (StrategyName.Greedy, g) := rfl
      rw [e3]
      by_cases h3 : g < rd
      · rw [if_pos h3, show max (max g dy) (max bt rd) = rd from by omega,
          if_neg (show ¬ g = rd from by omega),
          if_neg (show ¬ dy = rd from by omega),
          if_neg (show ¬ bt = rd from by omega)]
      · rw [if_neg h3, show max (max g dy) (max bt rd) = g from by omega,
          if_pos (show g = g from rfl)]

/-! ### Remaining helpers -/

theorem maxSubsetSum_le (w : Nat) (D : List Nat) : maxSubsetSum w D ≤ w := by
  rcases maxSubsetSum_attained w D with ⟨S, _, hle, hval⟩
  omega

theorem Sublist.sum_le_sum_nat {S D : List Nat} (h : S.Sublist D) : S.sum ≤ D.sum := by
  induction h with
  | slnil => exact Nat.le_refl 0
  | cons a _ ih =>
    rw [List.sum_cons]
    omega
  | cons₂ a _ ih =>
    rw [List.sum_cons, List.sum_cons]
    omega

/-! ### The claims -/

/-- C1: for every capacity `C`, demand list `D` and possible sequence of
random draws, each of the four allocators returns an achieved total that
is at most `C`. -/
theorem achieved_totals_le_capacity (C : Nat) (D : List Nat)
    (draw : Nat → Nat → Nat) (hdraw : ∀ k hi, draw k hi ≤ hi) :
    (greedy_allocation C D).2 ≤ C ∧
    (dynamic_allocation C D).2 ≤ C ∧
    (backtracking_allocation C D).2 ≤ C ∧
    (random_allocation C D draw).2 ≤ C := by
  refine ⟨?_, ?_, ?_, ?_⟩
  · rw [greedy_total_eq]
    omega
  · rw [dynamic_allocation_total]
    exact maxSubsetSum_le C D
  · rw [backtracking_total_eq]
    exact maxSubsetSum_le C D
  · show C - (randomGo draw D 0 C).2 ≤ C
    omega

/-- Witness for C1 at `C = 10`, `D = [20]`, the all-zero draw sequence. -/
theorem achieved_totals_le_capacity_witness :
    (greedy_allocation 10 [20]).2 ≤ 10 ∧
    (dynamic_allocation 10 [20]).2 ≤ 10 ∧
    (backtracking_allocation 10 [20]).2 ≤ 10 ∧
    (random_allocation 10 [20] (fun _ _ => 0)).2 ≤ 10 :=
  achieved_totals_le_capacity 10 [20] (fun _ _ => 0) (fun _ _ => Nat.zero_le _)

/-- C2: the dynamic-programming and backtracking allocators always return
the same achieved total (both compute the subset-sum optimum). -/
theorem dynamic_backtracking_agree (C : Nat) (D : List Nat) :
    (dynamic_allocation C D).2 = (backtracking_allocation C D).2 := by
  rw [dynamic_allocation_total, backtracking_total_eq]

/-- C3: `dynamic_allocation` returns the maximum subset sum not exceeding
the capacity, and its allocation list is a sub-multiset of the demand list
(whole demands) summing to that total. -/
theorem dynamic_allocation_is_exact_optimum (C : Nat) (D : List Nat) :
    (dynamic_allocation C D).2 = maxSubsetSum C D ∧
    List.Subperm (dynamic_allocation C D).1 D ∧
    (dynamic_allocation C D).1.sum = (dynamic_allocation C D).2 :=
  ⟨dynamic_allocation_total C D,
    ⟨(dynamic_allocation C D).1.reverse, List.reverse_perm _,
      dynamic_allocation_reverse_sublist C D⟩,
    dynamic_allocation_sum_eq C D⟩

/-- C4 counterexample: at `C = 10`, `D = [20]` greedy achieves 10 while
the dynamic optimizer achieves 0, so greedy's total is not ≤ the dynamic
total. -/
theorem greedy_exceeds_dynamic_at_ten_twenty :
    ¬ ((greedy_allocation 10 [20]).2 ≤ (dynamic_allocation 10 [20]).2) := by
  decide

/-- C4 amended: the inequality holds in the opposite direction — the
dynamic optimizer (restricted to whole demands) never beats the greedy
allocator (which may grant partial amounts and so always reaches
`min C (sum D)`). -/
theorem dynamic_le_greedy (C : Nat) (D : List Nat) :
    (dynamic_allocation C D).2 ≤ (greedy_allocation C D).2 := by
  rw [dynamic_allocation_total, greedy_total_eq]
  rcases maxSubsetSum_attained C D with ⟨S, hS, hle, hval⟩
  have hsum := Sublist.sum_le_sum_nat hS
  omega

/-- C5: at `C = 10`, `D = [20]` greedy returns `([10], 10)` while the two
exact optimizers return `([], 0)`. -/
theorem concrete_scenario_capacity_ten :
    greedy_allocation 10 [20] = ([10], 10) ∧
    dynamic_allocation 10 [20] = ([], 0) ∧
    backtracking_allocation 10 [20] = ([], 0) := by
  decide

/-- C6 counterexample: on a demand list containing the non-positive
demand 0 the core raises no error: every allocator runs and returns an
ordinary result. -/
theorem allocators_run_on_zero_demand :
    greedy_allocation 5 [0] = ([0], 0) ∧
    dynamic_allocation 5 [0] = ([], 0) ∧
    backtracking_allocation 5 [0] = ([], 0) ∧
    random_allocation 5 [0] (fun _ _ => 0) = ([0], 0) := by
  decide

/-- C6 amended: the core does not signal InvalidInput; on an input whose
demand list contains the non-positive demand 0, every one of the four
allocators runs normally and returns an ordinary result, still keeping
its achieved total within the capacity (for every possible draw sequence
in the random case).  Nothing is asserted about negative demands, which
lie outside this embedding's domain. -/
theorem core_runs_on_nonpositive_demands (C : Nat) (D : List Nat)
    (h : 0 ∈ D) (draw : Nat → Nat → Nat) (hdraw : ∀ k hi, draw k hi ≤ hi) :
    (greedy_allocation C D).2 ≤ C ∧
    (dynamic_allocation C D).2 ≤ C ∧
    (backtracking_allocation C D).2 ≤ C ∧
    (random_allocation C D draw).2 ≤ C := by
  refine ⟨?_, ?_, ?_, ?_⟩
  · rw [greedy_total_eq]
    omega
  · rw [dynamic_allocation_total]
    exact maxSubsetSum_le C D
  · rw [backtracking_total_eq]
    exact maxSubsetSum_le C D
  · show C - (randomGo draw D 0 C).2 ≤ C
    omega

/-- Witness for the amended C6 at `C = 5`, `D = [0]`, the all-zero draw
sequence. -/
theorem core_runs_on_nonpositive_demands_witness :
    (greedy_allocation 5 [0]).2 ≤ 5 ∧
    (dynamic_allocation 5 [0]).2 ≤ 5 ∧
    (backtracking_allocation 5 [0]).2 ≤ 5 ∧
    (random_allocation 5 [0] (fun _ _ => 0)).2 ≤ 5 :=
  core_runs_on_nonpositive_demands 5 [0] (by decide) (fun _ _ => 0)
    (fun _ _ => Nat.zero_le _)

/-- C7: `auto_select` reports the four totals in evaluation order, its
best total is their maximum, and its best strategy is the first in the
order Greedy, DynamicProgramming, Backtracking, Random to attain that
maximum. -/
theorem auto_select_picks_first_maximal (C : Nat) (D : List Nat)
    (draw : Nat → Nat → Nat) :
    (auto_select C D draw).2.2 =
      [(StrategyName.Greedy, (greedy_allocation C D).2),
        (StrategyName.DynamicProgramming, (dynamic_allocation C D).2),
        (StrategyName.Backtracking, (backtracking_allocation C D).2),
        (StrategyName.Random, (random_allocation C D draw).2)] ∧
    (auto_select C D draw).2.1 =
      max (max (greedy_allocation C D).2 (dynamic_allocation C D).2)
        (max (backtracking_allocation C D).2 (random_allocation C D draw).2) ∧
    (auto_select C D draw).1 =
      (if (greedy_allocation C D).2 =
          max (max (greedy_allocation C D).2 (dynamic_allocation C D).2)
            (max (backtracking_allocation C D).2 (random_allocation C D draw).2)
        then StrategyName.Greedy
        else if (dynamic_allocation C D).2 =
            max (max (greedy_allocation C D).2 (dynamic_allocation C D).2)
              (max (backtracking_allocation C D).2 (random_allocation C D draw).2)
          then StrategyName.DynamicProgramming
          else if (backtracking_allocation C D).2 =
              max (max (greedy_allocation C D).2 (dynamic_allocation C D).2)
                (max (backtracking_allocation C D).2 (random_allocation C D draw).2)
            then StrategyName.Backtracking
            else StrategyName.Random) := by
  have h := pyMax_four (greedy_allocation C D).2 (dynamic_allocation C D).2
    (backtracking_allocation C D).2 (random_allocation C D draw).2
  refine ⟨rfl, ?_, ?_⟩
  · show (pyMax (StrategyName.Greedy, (greedy_allocation C D).2)
        [(StrategyName.DynamicProgramming, (dynamic_allocation C D).2),
          (StrategyName.Backtracking, (backtracking_allocation C D).2),
          (StrategyName.Random, (random_allocation C D draw).2)]).2 = _
    rw [h]
  · show (pyMax (StrategyName.Greedy, (greedy_allocation C D).2)
        [(StrategyName.DynamicProgramming, (dynamic_allocation C D).2),
          (StrategyName.Backtracking, (backtracking_allocation C D).2),
          (StrategyName.Random, (random_allocation C D draw).2)]).1 = _
    rw [h]

/-- C8: on an empty demand list every allocator returns the empty
allocation with achieved total 0, for every capacity and every draw
sequence. -/
theorem empty_demand_list_all_zero (C : Nat) (draw : Nat → Nat → Nat) :
    greedy_allocation C [] = ([], 0) ∧
    random_allocation C [] draw = ([], 0) ∧
    dynamic_allocation C [] = ([], 0) ∧
    backtracking_allocation C [] = ([], 0) := by
  refine ⟨?_, ?_, rfl, ?_⟩
  · show (([] : List Nat), C - C) = ([], 0)
    rw [Nat.sub_self]
  · show (([] : List Nat), C - C) = ([], 0)
    rw [Nat.sub_self]
  · simp [backtracking_allocation, btGo]

/-- C9: the greedy achieved total is exactly `min C (sum D)`: the partial
grants exhaust either the capacity or the demands. -/
theorem greedy_total_eq_min_capacity_sum (C : Nat) (D : List Nat) :
    (greedy_allocation C D).2 = min C D.sum :=
  greedy_total_eq C D

/-- C10: `backtracking_allocation` returns a pair whose list sums to the
returned total and is an order-preserving sublist of the demand list. -/
theorem backtracking_result_wellformed (C : Nat) (D : List Nat) :
    (backtracking_allocation C D).1.sum = (backtracking_allocation C D).2 ∧
    (backtracking_allocation C D).1.Sublist D :=
  ⟨backtracking_sum_eq C D, backtracking_alloc_sublist C D⟩
